import Mathlib

/-!
Verification development for the `ustp-cea` post-processing pipeline.

The repository harvests student transcript records and then post-processes
them: duplicate-subject resolution, enrollment-status classification, and
GWA (grade-weighted-average) computation.  This file shallowly embeds the
post-processing functions of the source (`newmain.py`, `duplicate.py`,
`calculate_gwa.py`) as executable Lean definitions over exact rationals and
proves / refutes the specified properties about them.

Modelling conventions:
* Python `str` fields become Lean `String`; `dict` records become structures
  whose fields are the keys the source reads or writes.
* Python `float` arithmetic is modelled by exact rationals `ℚ`.  `float(s)`
  on a string is modelled by `pyFloat`, a parser for finite decimal literals
  (optional sign, digits, fractional part, exponent, surrounding whitespace);
  the `inf`/`nan`/underscore spellings Python additionally accepts are not
  representable in `ℚ` and are mapped to parse failure.
* Python `round(x, n)` (round-half-to-even at `n` decimal digits) is modelled
  by `pyRound` on `ℚ`.
* Mutation of a dict (`student["gwa"] = ...`) is modelled by a functional
  structure update.
-/

namespace UstpCea

/-- One academic subject entry of one student
(a row of the `grades` list in the source's JSON records). -/
structure Subject where
  subject_code : String
  subject_description : String
  subject_unit : String
  grade : String
  deriving Repr, DecidableEq

/-- One student's record.  The four derived numeric fields and the derived
status are `Option`s: `none` models the key being absent from the dict
before the corresponding pipeline stage has run. -/
structure Student where
  student_id : String
  name : String
  course : String
  year_level : String
  grades : List Subject
  enrollment_status : Option String := none
  gwa : Option ℚ := none
  total_units_completed : Option ℚ := none
  total_valid_subjects : Option ℕ := none
  total_grade_points : Option ℚ := none
  deriving Repr, DecidableEq

/-! ### String helpers

Lean core's `String.trim`, `String.toUpper` and `String.replace` are
implemented by well-founded recursion over byte positions, which the kernel
cannot evaluate; the equivalent list-of-characters forms below compute the
same strings and reduce definitionally. -/

/-- Model of Python's `str.strip()`: remove leading and trailing whitespace
characters. -/
def pyStrip (s : String) : String :=
  ⟨((s.toList.dropWhile Char.isWhitespace).reverse.dropWhile Char.isWhitespace).reverse⟩

/-- Model of Python's `str.upper()`: uppercase every character. -/
def pyUpper (s : String) : String :=
  ⟨s.toList.map Char.toUpper⟩

/-- Model of Python's `str.replace(c, "")` for a single-character pattern
`c`: remove every occurrence of the character. -/
def removeChar (c : Char) (s : String) : String :=
  ⟨s.toList.filter (fun d => d ≠ c)⟩

/-! ### Python float parsing, modelled over ℚ -/

/-- Value of a list of decimal digit characters, most significant first
(the digits have already been checked with `Char.isDigit`). -/
def digitsVal (ds : List Char) : ℕ :=
  ds.foldl (fun a c => 10 * a + (c.toNat - 48)) 0

/-- Parse the optional exponent suffix of a float literal (`e±ddd`); the
whole remainder of the literal must be consumed.  Returns the exponent,
`0` when the remainder is empty, `none` on trailing garbage. -/
def parseExpPart : List Char → Option ℤ
  | [] => some 0
  | c :: r =>
    if c = 'e' ∨ c = 'E' then
      let (neg, r1) : Bool × List Char :=
        match r with
        | '+' :: t => (false, t)
        | '-' :: t => (true, t)
        | t => (false, t)
      let ds := r1.takeWhile Char.isDigit
      let rest := r1.dropWhile Char.isDigit
      if ds = [] ∨ rest ≠ [] then none
      else some (if neg then -(digitsVal ds : ℤ) else (digitsVal ds : ℤ))
    else none

/-- Value of `m · 10 ^ e` as an exact rational. -/
def decShift (m : ℤ) (e : ℤ) : ℚ :=
  if 0 ≤ e then ((m * (10 : ℤ) ^ e.toNat : ℤ) : ℚ)
  else (m : ℚ) / (((10 : ℕ) ^ (-e).toNat : ℕ) : ℚ)

/-- Exact value of a parsed decimal literal: sign, integer digits,
fractional digits, exponent. -/
def decValue (neg : Bool) (ip fp : List Char) (e : ℤ) : ℚ :=
  let m : ℤ := (digitsVal (ip ++ fp) : ℤ)
  decShift (if neg then -m else m) (e - (fp.length : ℤ))

/-- Model of Python's `float(s)` on strings, over exact rationals:
strips surrounding whitespace, then accepts `[+-] digits [. digits] [e[+-]digits]`
(at least one digit overall).  `none` models `float` raising `ValueError`. -/
def pyFloat (s : String) : Option ℚ :=
  let cs := (pyStrip s).toList
  let (neg, cs1) : Bool × List Char :=
    match cs with
    | '+' :: t => (false, t)
    | '-' :: t => (true, t)
    | t => (false, t)
  let ip := cs1.takeWhile Char.isDigit
  let cs2 := cs1.dropWhile Char.isDigit
  match cs2 with
  | '.' :: r =>
    let fp := r.takeWhile Char.isDigit
    let cs3 := r.dropWhile Char.isDigit
    if ip = [] ∧ fp = [] then none
    else (parseExpPart cs3).map (decValue neg ip fp)
  | r =>
    if ip = [] then none
    else (parseExpPart r).map (decValue neg ip [])

/-! ### Python rounding, modelled over ℚ -/

/-- Round a rational to the nearest integer, ties to the even integer
(Python's rounding mode). -/
def roundHalfEven (q : ℚ) : ℤ :=
  let f := ⌊q⌋
  let r := q - (f : ℚ)
  if r < 1 / 2 then f
  else if 1 / 2 < r then f + 1
  else if f % 2 = 0 then f else f + 1

/-- Model of Python's `round(x, n)` for `n ≥ 0` decimal digits. -/
def pyRound (q : ℚ) (n : ℕ) : ℚ :=
  (roundHalfEven (q * 10 ^ n) : ℚ) / 10 ^ n

/-! ### Status classification — `newmain.py` (3-way, canonical) -/

/-- The sentinel set of `classify_enrollment_status` in `newmain.py`:
`{"5", "5.0", "5.00", "INC", "W", "D/F"}`. -/
def sentinelGrades : List String := ["5", "5.0", "5.00", "INC", "W", "D/F"]

/-- The loop body of `classify_enrollment_status` (newmain.py): walk the
grades with their indices, accumulating `pending_reasons` (blank grade after
strip) and `irregular_reasons` (stripped grade in the sentinel set), in
index order. -/
def classifyLoop : ℕ → List Subject → List String × List String
  | _, [] => ([], [])
  | i, g :: rest =>
    let (pending, irregular) := classifyLoop (i + 1) rest
    let grade := pyStrip g.grade
    if grade = "" then
      (("index " ++ toString i ++ ": blank grade") :: pending, irregular)
    else if sentinelGrades.contains grade then
      (pending, ("index " ++ toString i ++ ": \x27" ++ grade ++ "\x27") :: irregular)
    else
      (pending, irregular)

/-- Embedding of `classify_enrollment_status` (newmain.py, lines 376–393): returns
`("Grades Pending", pending_reasons)` if any grade is blank after stripping,
else `("Irregular", irregular_reasons)` if any stripped grade is in the
sentinel set, else `("Regular", [])`. -/
def classify_enrollment_status (grades : List Subject) : String × List String :=
  let (pending, irregular) := classifyLoop 0 grades
  if pending ≠ [] then ("Grades Pending", pending)
  else if irregular ≠ [] then ("Irregular", irregular)
  else ("Regular", [])

/-! ### Status classification — `duplicate.py` (legacy 2-way) -/

/-- Embedding of `is_irregular_grade` (duplicate.py): the stripped grade lies in
`{"", "INC", "5", "5.0", "5.00", "W", "D/F"}`. -/
def is_irregular_grade (grade_val : String) : Bool :=
  ["", "INC", "5", "5.0", "5.00", "W", "D/F"].contains (pyStrip grade_val)

/-- The loop body of `classify_status` (duplicate.py): collect a reason for
every grade satisfying `is_irregular_grade`, in index order. -/
def classifyStatusLoop : ℕ → List Subject → List String
  | _, [] => []
  | i, g :: rest =>
    let reasons := classifyStatusLoop (i + 1) rest
    if is_irregular_grade g.grade then
      ("index " ++ toString i ++ ": \x27" ++ g.grade ++ "\x27") :: reasons
    else reasons

/-- Embedding of `classify_status` (duplicate.py, lines 237–242): `("Irregular", reasons)`
when any grade is irregular per `is_irregular_grade`, else `("Regular", [])`. -/
def classify_status (grades : List Subject) : String × List String :=
  let reasons := classifyStatusLoop 0 grades
  (if reasons ≠ [] then "Irregular" else "Regular", reasons)

/-! ### Duplicate resolution — `fix_duplicates_and_classify` (newmain.py) -/

/-- The normalized subject key: `subject_code.strip().upper()`. -/
def normCode (s : String) : String := pyUpper (pyStrip s)

/-- The source groups indices by nonempty normalized code (`seen`) and puts
into `to_remove` every index of a group except its last (`indices[:-1]`);
so an entry is removed exactly when its normalized code is nonempty and
some *later* entry carries the same normalized code.  `keepSubject rest g`
is the negation of that criterion for an entry `g` whose later entries are
`rest`. -/
def keepSubject (rest : List Subject) (g : Subject) : Bool :=
  normCode g.subject_code = "" ||
    !(rest.any (fun h => normCode h.subject_code = normCode g.subject_code))

/-- The duplicate-removal step of `fix_duplicates_and_classify`
(newmain.py, lines 401–417): keep each entry unless a later entry has the
same nonempty normalized subject code (last occurrence wins), preserving
the order of survivors. -/
def dedupGrades : List Subject → List Subject
  | [] => []
  | g :: rest =>
    if keepSubject rest g then g :: dedupGrades rest else dedupGrades rest

/-- Removal criterion of the source, stated over positions: the entry at
index `i` (value `g`) of `grades` is in `to_remove` iff its normalized code
is nonempty and a later index holds the same normalized code. -/
def removedAt (grades : List Subject) (i : ℕ) (g : Subject) : Bool :=
  normCode g.subject_code ≠ "" &&
    (grades.drop (i + 1)).any (fun h => normCode h.subject_code = normCode g.subject_code)

/-- Embedding of `fix_duplicates_and_classify` (newmain.py): replace `grades` by the
deduplicated list, then classify it and store the status. -/
def fix_duplicates_and_classify (student : Student) : Student :=
  let newGrades := dedupGrades student.grades
  let classified := classify_enrollment_status newGrades
  { student with grades := newGrades, enrollment_status := some classified.1 }

/-! ### GWA computation — `calculate_gwa.py` -/

/-- Embedding of `is_valid_grade` (calculate_gwa.py, lines 26–32): `float(grade)` succeeds
and the value lies in `[1.0, 5.0]`. -/
def is_valid_grade (grade : String) : Bool :=
  match pyFloat grade with
  | some g => decide (1 ≤ g ∧ g ≤ 5)
  | none => false

/-- Unit coercion of `calculate_gwa` (lines 51–55):
`float(str(units_str).replace("(", "").replace(")", ""))`, defaulting to
`0.0` when the coercion fails. -/
def parseUnits (units_str : String) : ℚ :=
  match pyFloat (removeChar ')' (removeChar '(' units_str)) with
  | some u => u
  | none => 0

/-- One iteration of the accumulation loop of `calculate_gwa` (lines 47–66)
over the accumulator `(total_units, total_grade_points, valid_subjects)`:
skip the subject unless its stripped grade is valid, otherwise add its units,
weighted grade points, and count. -/
def gwaStep (acc : ℚ × ℚ × ℕ) (subject : Subject) : ℚ × ℚ × ℕ :=
  let grade_str := pyStrip subject.grade
  let units := parseUnits subject.subject_unit
  if is_valid_grade grade_str then
    (acc.1 + units, acc.2.1 + (pyFloat grade_str).getD 0 * units, acc.2.2 + 1)
  else acc

/-- The accumulated `(total_units, total_grade_points, valid_subjects)` of
`calculate_gwa` over a grades list. -/
def gwaTotals (grades : List Subject) : ℚ × ℚ × ℕ :=
  grades.foldl gwaStep (0, 0, 0)

/-- Embedding of `calculate_gwa` (calculate_gwa.py, lines 34–95): accumulate over the
grades, then set `gwa` (rounded to 3 digits when `total_units > 0`, else
null), `total_units_completed` (rounded to 1 digit), `total_valid_subjects`
and `total_grade_points` (rounded to 3 digits).  The local honor-tier
`status` variable of the source is computed for logging only and never
stored; it is omitted. -/
def calculate_gwa (student : Student) : Student :=
  let totals := gwaTotals student.grades
  let total_units := totals.1
  let total_grade_points := totals.2.1
  let valid_subjects := totals.2.2
  let gwa : Option ℚ :=
    if 0 < total_units then some (pyRound (total_grade_points / total_units) 3) else none
  { student with
      gwa := gwa
      total_units_completed := some (pyRound total_units 1)
      total_valid_subjects := some valid_subjects
      total_grade_points := some (pyRound total_grade_points 3) }

/-! ### Batch driver — `process_gwa` (calculate_gwa.py) -/

/-- The outcome of reading one raw input line in `process_gwa` (lines
106–115): the stripped line is empty, or `json.loads` raises
`JSONDecodeError`, or it yields a student record. -/
inductive RawLine where
  | blank
  | malformed
  | record (s : Student)
  deriving Repr

/-- The load loop of `process_gwa` (lines 105–115): blank lines are skipped
silently, malformed lines are skipped after logging an error (counted here),
parsed records are appended in order.  Returns the loaded students and the
number of malformed-line errors logged. -/
def loadStudents : List RawLine → List Student × ℕ
  | [] => ([], 0)
  | RawLine.blank :: rest => loadStudents rest
  | RawLine.malformed :: rest =>
    let (students, errors) := loadStudents rest
    (students, errors + 1)
  | RawLine.record s :: rest =>
    let (students, errors) := loadStudents rest
    (s :: students, errors)

/-- The record a raw line successfully parses to, if any. -/
def RawLine.parsed : RawLine → Option Student
  | RawLine.record s => some s
  | _ => none

/-- Embedding of `process_gwa` (calculate_gwa.py, lines 100–125), restricted to its data
path: load the parseable records in order, then enrich each with
`calculate_gwa`.  (File I/O and the summary logging are out of scope.) -/
def process_gwa (lines : List RawLine) : List Student :=
  (loadStudents lines).1.map calculate_gwa

/-- Classification of one raw line as a `json.loads` failure. -/
def RawLine.isMalformed : RawLine → Bool
  | RawLine.malformed => true
  | _ => false

/-- The pairwise shape of the deduplication invariant: any entry is either
empty-coded or differs in normalized code from every later survivor. -/
def uniqueCodes (gs : List Subject) : Prop :=
  gs.Pairwise (fun a b => normCode a.subject_code = "" ∨
    normCode a.subject_code ≠ normCode b.subject_code)

/-! ### Characterizations of the classifiers -/

/-- A subject's stripped grade is blank. -/
def blankGrade (g : Subject) : Prop := pyStrip g.grade = ""

/-- A subject's stripped grade lies in the canonical sentinel set. -/
def sentinelGrade (g : Subject) : Prop := pyStrip g.grade ∈ sentinelGrades

instance (g : Subject) : Decidable (blankGrade g) := by
  unfold blankGrade; infer_instance

instance (g : Subject) : Decidable (sentinelGrade g) := by
  unfold sentinelGrade; infer_instance

theorem string_contains_iff_mem {l : List String} {a : String} :
    l.contains a = true ↔ a ∈ l := by
  simp [List.contains, List.elem_eq_mem]

theorem classifyLoop_pending_eq_nil (gs : List Subject) :
    ∀ i, (classifyLoop i gs).1 = [] ↔ ∀ g ∈ gs, ¬ blankGrade g := by
  induction gs with
  | nil => simp [classifyLoop]
  | cons g rest ih =>
    intro i
    simp only [classifyLoop, blankGrade]
    by_cases hb : pyStrip g.grade = ""
    · simp [hb, blankGrade]
    · by_cases hs : pyStrip g.grade ∈ sentinelGrades <;>
        · rw [show (sentinelGrades.contains (pyStrip g.grade)) =
              decide (pyStrip g.grade ∈ sentinelGrades) by
              simp [List.contains, List.elem_eq_mem]]
          simpa [hb, hs, blankGrade] using ih (i + 1)

theorem classifyLoop_irregular_eq_nil (gs : List Subject) :
    ∀ i, (classifyLoop i gs).2 = [] ↔
      ∀ g ∈ gs, blankGrade g ∨ ¬ sentinelGrade g := by
  induction gs with
  | nil => simp [classifyLoop]
  | cons g rest ih =>
    intro i
    simp only [classifyLoop]
    by_cases hb : pyStrip g.grade = ""
    · simpa [hb, blankGrade] using ih (i + 1)
    · rw [show (sentinelGrades.contains (pyStrip g.grade)) =
          decide (pyStrip g.grade ∈ sentinelGrades) by
          simp [List.contains, List.elem_eq_mem]]
      by_cases hs : pyStrip g.grade ∈ sentinelGrades
      · simp [hb, hs, blankGrade, sentinelGrade]
      · simpa [hb, hs, sentinelGrade] using ih (i + 1)

/-- The 3-way classifier, expressed through the two reason lists. -/
theorem classify_enrollment_status_eq (gs : List Subject) :
    classify_enrollment_status gs =
      if (classifyLoop 0 gs).1 ≠ [] then ("Grades Pending", (classifyLoop 0 gs).1)
      else if (classifyLoop 0 gs).2 ≠ [] then ("Irregular", (classifyLoop 0 gs).2)
      else ("Regular", []) := rfl

theorem classify_status_eq (gs : List Subject) :
    classify_status gs =
      (if classifyStatusLoop 0 gs ≠ [] then "Irregular" else "Regular",
        classifyStatusLoop 0 gs) := rfl

theorem classifyStatusLoop_eq_nil (gs : List Subject) :
    ∀ i, classifyStatusLoop i gs = [] ↔
      ∀ g ∈ gs, is_irregular_grade g.grade = false := by
  induction gs with
  | nil => simp [classifyStatusLoop]
  | cons g rest ih =>
    intro i
    simp only [classifyStatusLoop]
    by_cases hg : is_irregular_grade g.grade
    · simp [hg]
    · simpa [hg] using ih (i + 1)

/-- Pointwise agreement of the two irregularity tests: the legacy test of
`duplicate.py` holds exactly when the grade is blank or in the canonical
sentinel set of `newmain.py`. -/
theorem is_irregular_grade_iff (g : Subject) :
    is_irregular_grade g.grade = true ↔ blankGrade g ∨ sentinelGrade g := by
  simp only [is_irregular_grade, blankGrade, sentinelGrade, sentinelGrades,
    string_contains_iff_mem, List.mem_cons, List.not_mem_nil, or_false]
  tauto

/-- C1: for every list of subject records containing at least one subject
whose grade is blank after stripping and at least one subject whose stripped
grade lies in the irregular sentinel set, `classify_enrollment_status`
returns `"Grades Pending"` and never `"Irregular"`: blank grades take strict
precedence over irregular grades. -/
theorem classify_blank_precedence (grades : List Subject)
    (hblank : ∃ g ∈ grades, blankGrade g)
    (_hirr : ∃ g ∈ grades, sentinelGrade g) :
    (classify_enrollment_status grades).1 = "Grades Pending" ∧
      (classify_enrollment_status grades).1 ≠ "Irregular" := by
  have hp : (classifyLoop 0 grades).1 ≠ [] := by
    rw [Ne, classifyLoop_pending_eq_nil]
    push_neg
    exact hblank
  rw [classify_enrollment_status_eq]
  refine ⟨by simp [hp], ?_⟩
  simp only [hp, if_true, ne_eq, not_false_eq_true, if_pos]
  decide

/-- Witness for C1 at a concrete list: one blank grade, one sentinel
grade. -/
theorem classify_blank_precedence_witness :
    (∃ g ∈ [Subject.mk "PHYS1" "" "3" " ", Subject.mk "CHEM1" "" "3" "5.0"],
        blankGrade g) ∧
    (∃ g ∈ [Subject.mk "PHYS1" "" "3" " ", Subject.mk "CHEM1" "" "3" "5.0"],
        sentinelGrade g) ∧
    (classify_enrollment_status
        [Subject.mk "PHYS1" "" "3" " ", Subject.mk "CHEM1" "" "3" "5.0"]).1
      = "Grades Pending" ∧
    (classify_enrollment_status
        [Subject.mk "PHYS1" "" "3" " ", Subject.mk "CHEM1" "" "3" "5.0"]).1
      ≠ "Irregular" := by
  refine ⟨by decide, by decide, ?_⟩
  exact classify_blank_precedence _ (by decide) (by decide)

/-- C10: the legacy 2-way classifier of `duplicate.py` refines the canonical
3-way classifier of `newmain.py`: it answers `"Irregular"` exactly when the
3-way classifier answers `"Grades Pending"` or `"Irregular"`, and
`"Regular"` exactly when the 3-way classifier answers `"Regular"` (the
legacy irregular token set is the union of the blank case and the canonical
sentinel set). -/
theorem classify_status_refines (grades : List Subject) :
    ((classify_status grades).1 = "Irregular" ↔
      (classify_enrollment_status grades).1 = "Grades Pending" ∨
        (classify_enrollment_status grades).1 = "Irregular") ∧
    ((classify_status grades).1 = "Regular" ↔
      (classify_enrollment_status grades).1 = "Regular") := by
  have hpoint : ∀ g : Subject,
      is_irregular_grade g.grade = false ↔ (¬ blankGrade g ∧ ¬ sentinelGrade g) := by
    intro g
    rw [← Bool.not_eq_true, is_irregular_grade_iff]
    tauto
  have hLPI : classifyStatusLoop 0 grades = [] ↔
      ((classifyLoop 0 grades).1 = [] ∧ (classifyLoop 0 grades).2 = []) := by
    rw [classifyLoop_pending_eq_nil grades 0, classifyLoop_irregular_eq_nil grades 0,
      classifyStatusLoop_eq_nil grades 0]
    constructor
    · intro h
      exact ⟨fun g hg => ((hpoint g).1 (h g hg)).1,
        fun g hg => Or.inr ((hpoint g).1 (h g hg)).2⟩
    · rintro ⟨h1, h2⟩ g hg
      exact (hpoint g).2 ⟨h1 g hg, (h2 g hg).resolve_left (h1 g hg)⟩
  have d1 : ("Grades Pending" : String) ≠ "Irregular" := by decide
  have d2 : ("Grades Pending" : String) ≠ "Regular" := by decide
  have d3 : ("Irregular" : String) ≠ "Regular" := by decide
  have d4 : ("Regular" : String) ≠ "Irregular" := by decide
  rw [classify_status_eq, classify_enrollment_status_eq]
  by_cases hP : (classifyLoop 0 grades).1 = []
  · by_cases hI : (classifyLoop 0 grades).2 = []
    · have hL : classifyStatusLoop 0 grades = [] := hLPI.2 ⟨hP, hI⟩
      simp [hP, hI, hL, d2.symm, d3.symm, d4]
    · have hL : classifyStatusLoop 0 grades ≠ [] := fun h => hI (hLPI.1 h).2
      simp [hP, hI, hL, d1.symm, d3]
  · have hL : classifyStatusLoop 0 grades ≠ [] := fun h => hP (hLPI.1 h).1
    simp [hP, hL, d1.symm, d2.symm]

/-! ### Lemmas about the duplicate resolver -/

/-- The entries kept by `dedupGrades` form a sublist of the input: survivors
appear in their original relative order. -/
theorem dedupGrades_sublist (gs : List Subject) : (dedupGrades gs).Sublist gs := by
  induction gs with
  | nil => simp [dedupGrades]
  | cons g rest ih =>
    rw [dedupGrades]
    by_cases hk : keepSubject rest g = true
    · simpa [hk] using ih.cons₂ g
    · simpa [hk] using ih.cons g

/-- The keep condition, restated: an entry survives in front of `rest` iff
its normalized code is empty or no entry of `rest` shares it. -/
theorem keepSubject_iff (rest : List Subject) (g : Subject) :
    keepSubject rest g = true ↔
      (normCode g.subject_code = "" ∨
        ∀ h ∈ rest, normCode h.subject_code ≠ normCode g.subject_code) := by
  simp [keepSubject, List.any_eq_true]

/-- Entries with an empty normalized code are always kept: deduplication
never groups them. -/
theorem dedupGrades_filter_empty (gs : List Subject) :
    (dedupGrades gs).filter (fun g => normCode g.subject_code = "")
      = gs.filter (fun g => normCode g.subject_code = "") := by
  induction gs with
  | nil => rfl
  | cons g rest ih =>
    rw [dedupGrades]
    by_cases hg : normCode g.subject_code = ""
    · have hk : keepSubject rest g = true := (keepSubject_iff rest g).2 (Or.inl hg)
      simp only [hk, if_true]
      rw [List.filter_cons, List.filter_cons]
      simp [hg, ih]
    · by_cases hk : keepSubject rest g = true <;>
        simp [hk, List.filter_cons, hg, ih]

/-- The entries of `dedupGrades gs` carrying a fixed nonempty normalized
code `C` are exactly the last occurrence of `C` in `gs` (and nothing when
`C` does not occur). -/
theorem dedupGrades_filter_code (C : String) (hC : C ≠ "") :
    ∀ gs : List Subject,
      (dedupGrades gs).filter (fun g => normCode g.subject_code = C)
        = ((gs.filter (fun g => normCode g.subject_code = C)).getLast?).toList := by
  intro gs
  induction gs with
  | nil => rfl
  | cons g rest ih =>
    rw [dedupGrades]
    by_cases hg : normCode g.subject_code = C
    · have hne : ¬ normCode g.subject_code = "" := by rw [hg]; exact hC
      by_cases hany : ∃ h ∈ rest, normCode h.subject_code = normCode g.subject_code
      · -- a later occurrence exists: the head is dropped
        have hk : keepSubject rest g = false := by
          rw [← Bool.not_eq_true, keepSubject_iff]
          push_neg
          obtain ⟨h, hh, he⟩ := hany
          exact ⟨hne, h, hh, he⟩
        have hrest : rest.filter (fun g => normCode g.subject_code = C) ≠ [] := by
          obtain ⟨h, hh, he⟩ := hany
          have : h ∈ rest.filter (fun g => normCode g.subject_code = C) := by
            rw [List.mem_filter]
            exact ⟨hh, by simp [he, hg]⟩
          exact List.ne_nil_of_mem this
        rw [if_neg (by simp [hk]), ih, List.filter_cons, if_pos (by simp [hg])]
        rcases hx : rest.filter (fun g => normCode g.subject_code = C) with _ | ⟨a, t⟩
        · exact absurd hx hrest
        · rw [hx, List.getLast?_cons_cons]
      · -- no later occurrence: the head is kept and is the last occurrence
        have hk : keepSubject rest g = true := by
          rw [keepSubject_iff]
          right
          intro h hh he
          exact hany ⟨h, hh, he⟩
        have hrest : rest.filter (fun g => normCode g.subject_code = C) = [] := by
          rw [List.filter_eq_nil_iff]
          intro h hh
          simp only [decide_eq_true_eq]
          intro he
          exact hany ⟨h, hh, by rw [he, hg]⟩
        rw [if_pos hk, List.filter_cons, if_pos (by simp [hg]), ih, hrest,
          List.filter_cons, if_pos (by simp [hg]), hrest]
        rfl
    · -- the head does not carry code C: both sides ignore it
      by_cases hk : keepSubject rest g = true
      · rw [if_pos hk, List.filter_cons, if_neg (by simp [hg]), ih,
          List.filter_cons, if_neg (by simp [hg])]
      · rw [if_neg hk, ih, List.filter_cons, if_neg (by simp [hg])]

theorem uniqueCodes_dedupGrades (gs : List Subject) :
    uniqueCodes (dedupGrades gs) := by
  induction gs with
  | nil => exact List.Pairwise.nil
  | cons g rest ih =>
    rw [dedupGrades]
    by_cases hk : keepSubject rest g = true
    · rw [if_pos hk]
      refine List.Pairwise.cons ?_ ih
      intro b hb
      rcases (keepSubject_iff rest g).1 hk with he | hall
      · exact Or.inl he
      · have hb' : b ∈ rest := (dedupGrades_sublist rest).subset hb
        exact Or.inr fun hc => hall b hb' hc.symm
    · rw [if_neg hk]
      exact ih

theorem dedupGrades_eq_self_of_uniqueCodes :
    ∀ gs : List Subject, uniqueCodes gs → dedupGrades gs = gs := by
  intro gs h
  induction gs with
  | nil => rfl
  | cons g rest ih =>
    rw [uniqueCodes, List.pairwise_cons] at h
    have hk : keepSubject rest g = true := by
      rw [keepSubject_iff]
      rcases Classical.em (normCode g.subject_code = "") with he | he
      · exact Or.inl he
      · right
        intro b hb hc
        rcases h.1 b hb with h1 | h1
        · exact he h1
        · exact h1 hc.symm
    rw [dedupGrades, if_pos hk, ih h.2]

/-- Shifting the removal criterion under a cons: position `i + 1` of
`g :: rest` sees the same later entries as position `i` of `rest`. -/
theorem removedAt_succ (g : Subject) (rest : List Subject) (i : ℕ) (h : Subject) :
    removedAt (g :: rest) (i + 1) h = removedAt rest i h := rfl

theorem dedupGrades_eq_filter_removedAt_aux :
    ∀ (gs full : List Subject) (k : ℕ), full.drop k = gs →
      ((gs.enumFrom k).filter (fun p => !(removedAt full p.1 p.2))).map Prod.snd
        = dedupGrades gs := by
  intro gs
  induction gs with
  | nil => intro full k _; rfl
  | cons g rest ih =>
    intro full k hk
    have hdrop : full.drop (k + 1) = rest := by
      have h1 : full.drop (k + 1) = (full.drop k).drop 1 := by
        rw [List.drop_drop]
      rw [h1, hk]
      rfl
    have hcond : removedAt full k g = !(keepSubject rest g) := by
      unfold removedAt keepSubject
      rw [hdrop]
      cases hany : rest.any
          (fun h => decide (normCode h.subject_code = normCode g.subject_code)) <;>
        by_cases he : normCode g.subject_code = "" <;> simp [he, hany]
    show ((((k, g) :: rest.enumFrom (k + 1)).filter
        (fun p => !(removedAt full p.1 p.2))).map Prod.snd) = dedupGrades (g :: rest)
    rw [List.filter_cons]
    by_cases hkeep : keepSubject rest g = true
    · rw [if_pos (by simp [hcond, hkeep]), List.map_cons, ih full (k + 1) hdrop]
      rw [dedupGrades, if_pos hkeep]
    · rw [if_neg (by simp [hcond, Bool.not_eq_true] at hkeep ⊢; simp [hkeep]),
        ih full (k + 1) hdrop, dedupGrades,
        if_neg hkeep]

/-- Faithfulness of `dedupGrades` to the source's `to_remove` set: filtering
the enumerated list by the complement of `removedAt` (the index-level
criterion computed by `seen`/`to_remove` in `fix_duplicates_and_classify`)
yields exactly `dedupGrades`. -/
theorem dedupGrades_eq_filter_removedAt (gs : List Subject) :
    dedupGrades gs
      = (gs.enum.filter (fun p => !(removedAt gs p.1 p.2))).map Prod.snd :=
  (dedupGrades_eq_filter_removedAt_aux gs gs 0 rfl).symm

/-- C4: if a nonempty normalized code `C` occurs at two or more indices of
the subject list, the duplicate resolver's output contains exactly one
entry whose normalized code is `C`, namely the occurrence that came last in
the input. -/
theorem dedup_last_wins (grades : List Subject) (C : String) (hC : C ≠ "")
    (hdup : 2 ≤ (grades.filter (fun g => normCode g.subject_code = C)).length) :
    ∃ last,
      (grades.filter (fun g => normCode g.subject_code = C)).getLast? = some last ∧
      (dedupGrades grades).filter (fun g => normCode g.subject_code = C) = [last] := by
  have h := dedupGrades_filter_code C hC grades
  rcases hlast : (grades.filter (fun g => normCode g.subject_code = C)).getLast?
    with _ | l
  · rw [List.getLast?_eq_none_iff] at hlast
    rw [hlast] at hdup
    simp at hdup
  · exact ⟨l, hlast, by rw [h, hlast]; rfl⟩

/-- Witness for C4: code `CS101` occurs (after normalization) at indices 0
and 2; the resolver keeps only the index-2 entry. -/
theorem dedup_last_wins_witness :
    (("CS101" : String) ≠ "") ∧
    2 ≤ (([Subject.mk "CS101" "" "(3)" "3.0", Subject.mk "ENG1" "" "3" "2.0",
          Subject.mk "cs101 " "" "3" "1.0"].filter
            (fun g => normCode g.subject_code = "CS101")).length) ∧
    (∃ last,
      (([Subject.mk "CS101" "" "(3)" "3.0", Subject.mk "ENG1" "" "3" "2.0",
          Subject.mk "cs101 " "" "3" "1.0"].filter
            (fun g => normCode g.subject_code = "CS101")).getLast? = some last ∧
      (dedupGrades [Subject.mk "CS101" "" "(3)" "3.0", Subject.mk "ENG1" "" "3" "2.0",
          Subject.mk "cs101 " "" "3" "1.0"]).filter
            (fun g => normCode g.subject_code = "CS101") = [last])) := by
  refine ⟨by decide, by decide, ?_⟩
  exact dedup_last_wins _ "CS101" (by decide) (by decide)

/-- C5: the duplicate resolver preserves the relative order of all
surviving entries (its output is a sublist of its input), and every entry
whose normalized subject code is empty is always retained. -/
theorem dedup_order_preserved (st : Student) :
    ((fix_duplicates_and_classify st).grades).Sublist st.grades ∧
    ((fix_duplicates_and_classify st).grades).filter
        (fun g => normCode g.subject_code = "")
      = st.grades.filter (fun g => normCode g.subject_code = "") := by
  have hg : (fix_duplicates_and_classify st).grades = dedupGrades st.grades := rfl
  rw [hg]
  exact ⟨dedupGrades_sublist _, dedupGrades_filter_empty _⟩

/-- C6: the duplicate-removal step is idempotent. -/
theorem dedup_idempotent (L : List Subject) :
    dedupGrades (dedupGrades L) = dedupGrades L :=
  dedupGrades_eq_self_of_uniqueCodes _ (uniqueCodes_dedupGrades L)

/-- C7: after deduplication, all nonempty normalized subject codes in one
student's list are pairwise distinct. -/
theorem dedup_codes_unique (st : Student) :
    ((fix_duplicates_and_classify st).grades).Pairwise
      (fun a b => normCode a.subject_code ≠ "" → normCode b.subject_code ≠ "" →
        normCode a.subject_code ≠ normCode b.subject_code) := by
  have h := uniqueCodes_dedupGrades st.grades
  have hg : (fix_duplicates_and_classify st).grades = dedupGrades st.grades := rfl
  rw [hg]
  exact h.imp (fun hab ha _ => hab.resolve_left ha)

/-! ### Lemmas about rounding and the GWA accumulation -/

theorem roundHalfEven_bounds {q : ℚ} {a b : ℤ} (ha : (a : ℚ) ≤ q) (hb : q ≤ (b : ℚ)) :
    a ≤ roundHalfEven q ∧ roundHalfEven q ≤ b := by
  have hre : roundHalfEven q =
      if q - (⌊q⌋ : ℚ) < 1 / 2 then ⌊q⌋
      else if 1 / 2 < q - (⌊q⌋ : ℚ) then ⌊q⌋ + 1
      else if ⌊q⌋ % 2 = 0 then ⌊q⌋ else ⌊q⌋ + 1 := rfl
  rw [hre]
  have hfa : a ≤ ⌊q⌋ := Int.le_floor.mpr ha
  have hfb : (⌊q⌋ : ℚ) ≤ (b : ℚ) := le_trans (Int.floor_le q) hb
  have hfb' : ⌊q⌋ ≤ b := by exact_mod_cast hfb
  constructor
  · split_ifs <;> omega
  · split_ifs with h1 h2 h3
    · exact hfb'
    · have hlt : (⌊q⌋ : ℚ) < q := by linarith
      have hne : ⌊q⌋ ≠ b := by
        intro he
        rw [he] at hlt
        exact absurd hb (not_le.mpr hlt)
      omega
    · exact hfb'
    · have hr : q - (⌊q⌋ : ℚ) = 1 / 2 := le_antisymm (not_lt.mp h2) (not_lt.mp h1)
      have hlt : (⌊q⌋ : ℚ) < q := by linarith
      have hne : ⌊q⌋ ≠ b := by
        intro he
        rw [he] at hlt
        exact absurd hb (not_le.mpr hlt)
      omega

theorem pyRound_bounds {q : ℚ} {a b : ℤ} (ha : (a : ℚ) ≤ q) (hb : q ≤ (b : ℚ))
    (n : ℕ) : (a : ℚ) ≤ pyRound q n ∧ pyRound q n ≤ (b : ℚ) := by
  have h10 : (0 : ℚ) < 10 ^ n := by positivity
  have ha' : ((a * 10 ^ n : ℤ) : ℚ) ≤ q * 10 ^ n := by
    push_cast
    nlinarith
  have hb' : q * 10 ^ n ≤ ((b * 10 ^ n : ℤ) : ℚ) := by
    push_cast
    nlinarith
  obtain ⟨h1, h2⟩ := roundHalfEven_bounds ha' hb'
  have h1' : ((a * 10 ^ n : ℤ) : ℚ) ≤ (roundHalfEven (q * 10 ^ n) : ℚ) := by
    exact_mod_cast h1
  have h2' : ((roundHalfEven (q * 10 ^ n) : ℤ) : ℚ) ≤ ((b * 10 ^ n : ℤ) : ℚ) := by
    exact_mod_cast h2
  unfold pyRound
  constructor
  · rw [le_div_iff₀ h10]
    push_cast at h1' ⊢
    linarith
  · rw [div_le_iff₀ h10]
    push_cast at h2' ⊢
    linarith

/-- The branch shape of one GWA accumulation step. -/
theorem gwaStep_eq (acc : ℚ × ℚ × ℕ) (g : Subject) :
    gwaStep acc g =
      if is_valid_grade (pyStrip g.grade)
      then (acc.1 + parseUnits g.subject_unit,
            acc.2.1 + (pyFloat (pyStrip g.grade)).getD 0 * parseUnits g.subject_unit,
            acc.2.2 + 1)
      else acc := rfl

/-- A grade accepted by `is_valid_grade` parses to a rational in `[1, 5]`. -/
theorem is_valid_grade_bounds {s : String} (h : is_valid_grade s = true) :
    1 ≤ (pyFloat s).getD 0 ∧ (pyFloat s).getD 0 ≤ 5 := by
  unfold is_valid_grade at h
  rcases hp : pyFloat s with _ | q
  · rw [hp] at h
    exact absurd h (by simp)
  · rw [hp] at h
    simp only [decide_eq_true_eq] at h
    simpa [hp] using h

/-- Invariant of the accumulation loop: with non-negative units, the grade
points gained lie between one and five times the units gained, and units
never decrease. -/
theorem gwaTotals_foldl_bounds :
    ∀ (gs : List Subject) (acc : ℚ × ℚ × ℕ),
      (∀ g ∈ gs, 0 ≤ parseUnits g.subject_unit) →
      acc.1 ≤ (gs.foldl gwaStep acc).1 ∧
      (gs.foldl gwaStep acc).1 - acc.1 ≤ (gs.foldl gwaStep acc).2.1 - acc.2.1 ∧
      (gs.foldl gwaStep acc).2.1 - acc.2.1 ≤ 5 * ((gs.foldl gwaStep acc).1 - acc.1) := by
  intro gs
  induction gs with
  | nil =>
    intro acc _
    simp
  | cons g rest ih =>
    intro acc hu
    rw [List.foldl_cons]
    have hg : 0 ≤ parseUnits g.subject_unit := hu g (List.mem_cons_self g rest)
    have hrest : ∀ x ∈ rest, 0 ≤ parseUnits x.subject_unit :=
      fun x hx => hu x (List.mem_cons_of_mem g hx)
    by_cases hv : is_valid_grade (pyStrip g.grade) = true
    · obtain ⟨i1, i2, i3⟩ := ih (gwaStep acc g) hrest
      obtain ⟨hb1, hb2⟩ := is_valid_grade_bounds hv
      have hstep1 : (gwaStep acc g).1 = acc.1 + parseUnits g.subject_unit := by
        rw [gwaStep_eq, if_pos hv]
      have hstep2 : (gwaStep acc g).2.1 =
          acc.2.1 + (pyFloat (pyStrip g.grade)).getD 0 * parseUnits g.subject_unit := by
        rw [gwaStep_eq, if_pos hv]
      have hmul1 : 1 * parseUnits g.subject_unit ≤
          (pyFloat (pyStrip g.grade)).getD 0 * parseUnits g.subject_unit :=
        mul_le_mul_of_nonneg_right hb1 hg
      have hmul2 : (pyFloat (pyStrip g.grade)).getD 0 * parseUnits g.subject_unit ≤
          5 * parseUnits g.subject_unit :=
        mul_le_mul_of_nonneg_right hb2 hg
      rw [hstep1] at i1 i2 i3
      rw [hstep2] at i2 i3
      refine ⟨by linarith, by linarith, by linarith⟩
    · have hstep : gwaStep acc g = acc := by
        rw [gwaStep_eq, if_neg hv]
      rw [hstep]
      exact ih acc hrest

/-- Bounds of the accumulated totals from the zero accumulator. -/
theorem gwaTotals_bounds (gs : List Subject)
    (h : ∀ g ∈ gs, 0 ≤ parseUnits g.subject_unit) :
    0 ≤ (gwaTotals gs).1 ∧ (gwaTotals gs).1 ≤ (gwaTotals gs).2.1 ∧
      (gwaTotals gs).2.1 ≤ 5 * (gwaTotals gs).1 := by
  have hb := gwaTotals_foldl_bounds gs (0, 0, 0) h
  simpa [gwaTotals] using hb

/-- When no grade in the list is valid, the accumulator never moves. -/
theorem gwaTotals_of_no_valid :
    ∀ (gs : List Subject) (acc : ℚ × ℚ × ℕ),
      (∀ g ∈ gs, is_valid_grade (pyStrip g.grade) = false) →
      gs.foldl gwaStep acc = acc := by
  intro gs
  induction gs with
  | nil => intro acc _; rfl
  | cons g rest ih =>
    intro acc h
    rw [List.foldl_cons]
    have hstep : gwaStep acc g = acc := by
      rw [gwaStep_eq, if_neg (by simp [h g (List.mem_cons_self g rest)])]
    rw [hstep]
    exact ih acc (fun x hx => h x (List.mem_cons_of_mem g hx))

/-- The `gwa` field written by `calculate_gwa`, in terms of the totals. -/
theorem calculate_gwa_gwa (s : Student) :
    (calculate_gwa s).gwa =
      if 0 < (gwaTotals s.grades).1
      then some (pyRound ((gwaTotals s.grades).2.1 / (gwaTotals s.grades).1) 3)
      else none := rfl

/-- C8: `calculate_gwa` only writes the four derived fields `gwa`,
`total_units_completed`, `total_valid_subjects` and `total_grade_points`;
`student_id`, `name`, `course`, `year_level`, the `grades` list and
`enrollment_status` are returned unchanged. -/
theorem calculate_gwa_frame (s : Student) :
    (calculate_gwa s).student_id = s.student_id ∧
    (calculate_gwa s).name = s.name ∧
    (calculate_gwa s).course = s.course ∧
    (calculate_gwa s).year_level = s.year_level ∧
    (calculate_gwa s).grades = s.grades ∧
    (calculate_gwa s).enrollment_status = s.enrollment_status :=
  ⟨rfl, rfl, rfl, rfl, rfl, rfl⟩

/-- Counterexample to C2 as stated: the student has one subject whose grade
`"1.0"` is numerically valid (countable), yet because its unit string is
`"0"` the accumulated units are zero and `calculate_gwa` still sets
`gwa = none`.  So "gwa is null exactly when no subject had a valid grade"
fails in the right-to-left direction. -/
theorem gwa_null_despite_countable :
    (∃ g ∈ [Subject.mk "A" "" "0" "1.0"], is_valid_grade (pyStrip g.grade) = true) ∧
    (calculate_gwa (Student.mk "S1" "N" "C" "Y1" [Subject.mk "A" "" "0" "1.0"]
        none none none none none)).gwa = none := by
  constructor
  · exact ⟨Subject.mk "A" "" "0" "1.0", List.mem_cons_self _ _,
      by with_unfolding_all decide⟩
  · with_unfolding_all decide

/-- C2 (amended): `gwa` is null whenever no subject has a numerically valid
grade, and in general `gwa` is null exactly when the accumulated units over
valid-grade subjects are not positive (a countable subject contributing
zero or negative units can still leave `gwa` null). -/
theorem calculate_gwa_null_iff (s : Student) :
    ((∀ g ∈ s.grades, is_valid_grade (pyStrip g.grade) = false) →
      (calculate_gwa s).gwa = none) ∧
    ((calculate_gwa s).gwa = none ↔ (gwaTotals s.grades).1 ≤ 0) := by
  constructor
  · intro h
    rw [calculate_gwa_gwa]
    have hz : gwaTotals s.grades = (0, 0, 0) :=
      gwaTotals_of_no_valid s.grades (0, 0, 0) h
    rw [hz]
    norm_num
  · rw [calculate_gwa_gwa]
    split_ifs with h
    · simp only [reduceCtorEq, false_iff, not_le]
      exact h
    · simp only [true_iff]
      exact not_lt.mp h

/-- Witness for C2 (amended) at a student whose only grade is the sentinel
`"INC"`: no valid grade, hence `gwa = none`. -/
theorem calculate_gwa_null_iff_witness :
    (calculate_gwa (Student.mk "S2" "N" "C" "Y1" [Subject.mk "A" "" "3" "INC"]
        none none none none none)).gwa = none :=
  (calculate_gwa_null_iff (Student.mk "S2" "N" "C" "Y1" [Subject.mk "A" "" "3" "INC"]
      none none none none none)).1 (by with_unfolding_all decide)

/-- Counterexample to C3 as stated: the unit string `"-9"` coerces to the
negative number `-9` (the code never clamps units at zero), and with grades
`"1.0"` (10 units) and `"5.0"` (-9 units) the computed GWA is `-35`, far
outside `[1.0, 5.0]`, even though it is non-null. -/
theorem gwa_bound_violated :
    parseUnits "-9" < 0 ∧
    (calculate_gwa (Student.mk "S3" "N" "C" "Y1"
        [Subject.mk "A" "" "10" "1.0", Subject.mk "B" "" "-9" "5.0"]
        none none none none none)).gwa = some (-35) ∧
    ¬ (1 ≤ (-35 : ℚ) ∧ (-35 : ℚ) ≤ 5) := by
  refine ⟨by with_unfolding_all decide, by with_unfolding_all decide, by norm_num⟩

/-- C3 (amended): provided every subject's coerced unit value is
non-negative, every non-null `gwa` computed by `calculate_gwa` lies in the
closed interval `[1.0, 5.0]`. -/
theorem gwa_bounds_of_nonneg_units (s : Student)
    (h : ∀ g ∈ s.grades, 0 ≤ parseUnits g.subject_unit) :
    ∀ q, (calculate_gwa s).gwa = some q → 1 ≤ q ∧ q ≤ 5 := by
  intro q hq
  rw [calculate_gwa_gwa] at hq
  split_ifs at hq with hU
  have hq' : pyRound ((gwaTotals s.grades).2.1 / (gwaTotals s.grades).1) 3 = q :=
    Option.some_injective _ hq
  obtain ⟨b1, b2, b3⟩ := gwaTotals_bounds s.grades h
  have hav1 : (1 : ℚ) ≤ (gwaTotals s.grades).2.1 / (gwaTotals s.grades).1 := by
    rw [le_div_iff₀ hU]
    linarith
  have hav2 : (gwaTotals s.grades).2.1 / (gwaTotals s.grades).1 ≤ 5 := by
    rw [div_le_iff₀ hU]
    linarith
  have hb := pyRound_bounds (a := 1) (b := 5)
    (by exact_mod_cast hav1) (by exact_mod_cast hav2) 3
  rw [hq'] at hb
  exact_mod_cast hb

/-- Witness for C3 (amended) at Scenario A of the spec: grades `"1.5"` and
`"2.0"`, three units each, giving `gwa = 1.75 ∈ [1, 5]`. -/
theorem gwa_bounds_of_nonneg_units_witness :
    (∀ g ∈ (Student.mk "S4" "N" "C" "Y1"
        [Subject.mk "MATH101" "" "3" "1.5", Subject.mk "ENG101" "" "3" "2.0"]
        none none none none none).grades, 0 ≤ parseUnits g.subject_unit) ∧
    (calculate_gwa (Student.mk "S4" "N" "C" "Y1"
        [Subject.mk "MATH101" "" "3" "1.5", Subject.mk "ENG101" "" "3" "2.0"]
        none none none none none)).gwa = some (7 / 4) ∧
    (1 ≤ (7 / 4 : ℚ) ∧ (7 / 4 : ℚ) ≤ 5) := by
  refine ⟨by with_unfolding_all decide, by with_unfolding_all decide, ?_⟩
  exact gwa_bounds_of_nonneg_units
    (Student.mk "S4" "N" "C" "Y1"
      [Subject.mk "MATH101" "" "3" "1.5", Subject.mk "ENG101" "" "3" "2.0"]
      none none none none none)
    (by with_unfolding_all decide) (7 / 4) (by with_unfolding_all decide)

/-- C9: the batch driver keeps exactly the successfully parsed lines, in
their original order, enriching each with `calculate_gwa`; every malformed
line only increments the error counter and never aborts; an input with no
parseable line (all blank or malformed, or empty) yields an empty output. -/
theorem process_gwa_skips_malformed (lines : List RawLine) :
    process_gwa lines = (lines.filterMap RawLine.parsed).map calculate_gwa ∧
    (loadStudents lines).2 = lines.countP (fun l => l.isMalformed) ∧
    ((∀ l ∈ lines, l.parsed = none) → process_gwa lines = []) := by
  have hload : (loadStudents lines).1 = lines.filterMap RawLine.parsed ∧
      (loadStudents lines).2 = lines.countP (fun l => l.isMalformed) := by
    induction lines with
    | nil => exact ⟨rfl, rfl⟩
    | cons l rest ih =>
      cases l <;>
        simp [loadStudents, List.filterMap_cons, RawLine.parsed,
          RawLine.isMalformed, List.countP_cons, ih.1, ih.2]
  refine ⟨?_, hload.2, ?_⟩
  · rw [process_gwa, hload.1]
  · intro h
    rw [process_gwa, hload.1, List.filterMap_eq_nil_iff.mpr h]
    rfl

/-- Witness for C9: one malformed line and one blank line produce an empty
batch without error. -/
theorem process_gwa_skips_malformed_witness :
    process_gwa [RawLine.malformed, RawLine.blank] = [] := by
  refine (process_gwa_skips_malformed [RawLine.malformed, RawLine.blank]).2.2 ?_
  intro l hl
  rcases List.mem_cons.mp hl with rfl | hl2
  · rfl
  · rcases List.mem_cons.mp hl2 with rfl | h
    · rfl
    · cases h

end UstpCea
